import Mathlib

/-!
Verification of the Gen TSO catalog core: a shallow embedding of the
name-normalization, alias-table loading, observation-log resolution and
record-merge routines of `gen_tso/catalogs` (files `catalog_utils.py`,
`catalogs.py`, `fetch_catalogs.py`), together with proofs and refutations
of the specified properties.

Python strings are modelled as `List Char`; a Python exception is modelled
by `Option` (absence) or `Except PyErr` (the exception class matters).
Numeric values in the merge pipeline are modelled by an abstract type `α`
together with a record `Arith α` of the arithmetic operations and physical
constants the source uses (`pc.G`, `pc.au`, ..., `np.sqrt`); the claims
about the merge logic are claims about the `None`-structure only, so they
are stated for every such interpretation and witnessed at `α = ℤ`.
-/

/-- Python string type: a list of characters. -/
abbrev Str := List Char

/-- Python exception classes that the embedded code can raise. -/
inductive PyErr
  | indexError
  | valueError
  | keyError
deriving DecidableEq

/-- Python-style indexing `s[i]` with negative indices allowed;
`none` models an `IndexError`. -/
def pyGet (s : Str) (i : Int) : Option Char :=
  if 0 ≤ i then s.get? i.toNat
  else
    let j : Int := (s.length : Int) + i
    if 0 ≤ j then s.get? j.toNat else none

/-- Scan helper for `findFrom`: first index `≥ i` holding `c`. -/
def findFromGo (c : Char) : Nat → Str → Option Nat
  | _, [] => none
  | i, x :: xs => if x = c then some i else findFromGo c (i + 1) xs

/-- Python `s.find(c, start)`: index of the first occurrence of `c` at
position `≥ start`, `none` when absent (Python returns `-1`). -/
def findFrom (s : Str) (c : Char) (start : Nat) : Option Nat :=
  match findFromGo c 0 (s.drop start) with
  | none => none
  | some k => some (start + k)

/-- Scan helper for `rIndexOf`: index of the last occurrence of `c`. -/
def rIndexGo (c : Char) : Nat → Option Nat → Str → Option Nat
  | _, acc, [] => acc
  | i, acc, x :: xs => rIndexGo c (i + 1) (if x = c then some i else acc) xs

/-- Python `s.rindex(c)` without the exception: index of the last
occurrence of `c`, `none` when absent (Python raises `ValueError`). -/
def rIndexOf (s : Str) (c : Char) : Option Nat :=
  rIndexGo c 0 none s

/-- Fuelled worker for `replaceAll`; fuel `s.length` always suffices. -/
def replaceGo (pat repl : Str) : Nat → Str → Str
  | _, [] => []
  | 0, s => s
  | fuel + 1, c :: cs =>
    if pat ≠ [] ∧ pat.isPrefixOf (c :: cs) then
      repl ++ replaceGo pat repl fuel (cs.drop (pat.length - 1))
    else
      c :: replaceGo pat repl fuel cs

/-- Python `s.replace(pat, repl)`: replace all non-overlapping occurrences,
scanning left to right. -/
def replaceAll (s pat repl : Str) : Str :=
  replaceGo pat repl s.length s

/-- Worker for `collapseWs`; the flag records whether the previous
character was whitespace. -/
def collapseWsGo : Bool → Str → Str
  | _, [] => []
  | prevWs, c :: cs =>
    if c.isWhitespace then
      (if prevWs then [] else [' ']) ++ collapseWsGo true cs
    else
      c :: collapseWsGo false cs

/-- Python `re.sub(r'\s+', ' ', s)`: collapse every whitespace run into a
single blank. -/
def collapseWs (s : Str) : Str :=
  collapseWsGo false s

/-- Python `pat in s`: substring containment. -/
def containsSub (s pat : Str) : Bool :=
  match s with
  | [] => pat.isEmpty
  | _ :: xs => pat.isPrefixOf s || containsSub xs pat

/-! ### `catalog_utils.normalize_name` -/

/-- The literal `str.replace` rewrites at the head of `normalize_name`
(case fixes and the `GL -> GJ` catalog-synonym rewrite), in source order. -/
def casefixes : List (Str × Str) :=
  [("KEPLER".toList, "Kepler".toList),
   ("TRES".toList, "TrES".toList),
   ("WOLF-".toList, "Wolf ".toList),
   ("HATP".toList, "HAT-P-".toList),
   ("AU-MIC".toList, "AU Mic".toList),
   ("GL".toList, "GJ".toList)]

/-- The first fixed list of survey/catalog heads in `normalize_name`. -/
def spacedPfxs : List Str :=
  ["L", "G", "HD", "GJ", "LTT", "LHS", "HIP", "WD", "LP", "2MASS", "PSR"].map
    String.toList

/-- One iteration of the first for-loop in `normalize_name`:
`if name.startswith(p) and not name[len(p)].isalpha(): ...`.
`none` models the `IndexError` raised by `name[len(p)]` when the name is
exactly the catalog head. -/
def pfx_step (p : Str) (name : Str) : Option Str :=
  if p.isPrefixOf name then
    match name.get? p.length with
    | none => none
    | some c =>
      if ¬ c.isAlpha then
        let n1 := replaceAll name (p ++ ['-']) (p ++ [' '])
        match n1.get? p.length with
        | none => none
        | some c1 =>
          if c1 ≠ ' ' then some (p ++ [' '] ++ n1.drop p.length) else some n1
      else some name
  else some name

/-- The second fixed list of heads (signed-declination catalogs). -/
def dash_pfxs : List Str :=
  ["CD-", "BD-", "BD+"].map String.toList

/-- One iteration of the second for-loop in `normalize_name`: replace the
first dash found after the head with a blank. -/
def dash_step (p : Str) (name : Str) : Str :=
  match findFrom name '-' p.length with
  | none => name
  | some d =>
    if p.isPrefixOf name ∧ 0 < d then
      name.take d ++ [' '] ++ name.drop (d + 1)
    else name

/-- The `if name.endswith('A') and not name[-2].isspace()` step of
`normalize_name`; `none` models the `IndexError` from `name[-2]`. -/
def starA_step (name : Str) : Option Str :=
  if name.getLast? = some 'A' then
    match pyGet name (-2) with
    | none => none
    | some c =>
      if ¬ c.isWhitespace then some (name.dropLast ++ [' ', 'A']) else some name
  else some name

/-- `catalog_utils.normalize_name`, transcribed rule for rule; `none`
models a raised `IndexError`. -/
def normalize_name (target : Str) : Option Str := do
  let name0 := collapseWs target
  let name1 := casefixes.foldl (fun n pr => replaceAll n pr.1 pr.2) name0
  let name2 ← spacedPfxs.foldlM (fun n p => pfx_step p n) name1
  let name3 := dash_pfxs.foldl (fun n p => dash_step p n) name2
  let name4 ← starA_step name3
  let name5 :=
    if name4 = "55CNC".toList ∨ name4 = "RHO01-CNC".toList then "55 Cnc".toList
    else name4
  let name6 := replaceAll name5 "-offset".toList []
  let name7 := replaceAll name6 "-updated".toList []
  let name8 := if name7.getLast? = some '-' then name7.dropLast else name7
  let name9 := if name8 = "WD 1856".toList then "WD 1856+534".toList else name8
  pure (if containsSub name9 "V1298".toList then "V1298 Tau".toList else name9)

/-! ### `catalog_utils.is_letter` and the alias-table loader -/

/-- `catalog_utils.is_letter`: `name[-1].islower() and name[-2] == ' '`,
with Python's short-circuit evaluation and `IndexError`s. -/
def is_letter (name : Str) : Except PyErr Bool :=
  match pyGet name (-1) with
  | none => .error .indexError
  | some c1 =>
    if c1.isLower then
      match pyGet name (-2) with
      | none => .error .indexError
      | some c2 => .ok (decide (c2 = ' '))
    else .ok false

/-- The host-truncation branch of `parse` inside `catalogs.load_aliases`:
strip a planet-letter suffix, else truncate at the last dot
(`name.rindex('.')`, a `ValueError` when there is no dot). -/
def parse_host (name : Str) : Except PyErr Str :=
  match is_letter name with
  | .error e => .error e
  | .ok true => .ok (name.take (name.length - 2))
  | .ok false =>
    match rIndexOf name '.' with
    | none => .error .valueError
    | some e => .ok (name.take e)

/-- The `parse` helper of `catalogs.load_aliases`. -/
def parse_name (as_hosts : Bool) (name : Str) : Except PyErr Str :=
  if as_hosts then parse_host name else .ok name

/-- Python `d[k] = v` on an insertion-ordered dict: overwrite in place or
append at the end. -/
def dictInsert {K V : Type} [DecidableEq K] (d : List (K × V)) (k : K) (v : V) :
    List (K × V) :=
  if d.any (fun kv => decide (kv.1 = k)) then
    d.map (fun kv => if kv.1 = k then (k, v) else kv)
  else d ++ [(k, v)]

/-- Python `d.get(k)` / `k in d`. -/
def dictLookup {K V : Type} [DecidableEq K] (d : List (K × V)) (k : K) :
    Option V :=
  match d.find? (fun kv => decide (kv.1 = k)) with
  | none => none
  | some kv => some kv.2

/-- `catalogs.load_aliases`: build the alias dict from the parsed lines of
the alias table (each line a canonical name with its comma-separated alias
list), skipping self-aliases and writing `aliases[parse(alias)] = name`
for the rest.  Any exception from `parse` propagates. -/
def load_aliases (as_hosts : Bool) (lines : List (Str × List Str)) :
    Except PyErr (List (Str × Str)) :=
  lines.foldlM
    (fun d line => do
      let name ← parse_name as_hosts line.1
      line.2.foldlM
        (fun d al => do
          let pa ← parse_name as_hosts al
          if pa ≠ name then pure (dictInsert d pa name) else pure d)
        d)
    []

/-! ### `catalogs.load_trexolist_table` (resolution of observation-log hosts)

The function first resolves every normalized observation-log host through
the alias dict (`aliases`, which at the call site already maps every
catalog host to itself), falling back on stripping a `' A'` binary suffix,
and collects unresolved hosts in `missing`; it then re-keys the original
names by `jwst_aliases[name]` for every normalized target — including the
missing ones, which is where a `KeyError` escapes (the source marks this
loop `# TBD: Check this does not break for incomplete lists`). -/

/-- One iteration of the resolution loop of `load_trexolist_table`:
thread the `(jwst_aliases, missing)` pair over one normalized target. -/
def trexo_step (aliases : List (Str × Str)) (acc : List (Str × Str) × List Str)
    (t : Str) : List (Str × Str) × List Str :=
  match dictLookup aliases t with
  | some v => (dictInsert acc.1 t v, acc.2)
  | none =>
    if " A".toList.isSuffixOf t then
      match dictLookup aliases (t.take (t.length - 2)) with
      | some v => (dictInsert acc.1 t v, acc.2)
      | none => (acc.1, acc.2 ++ [t])
    else (acc.1, acc.2 ++ [t])

/-- The core of `catalogs.load_trexolist_table`, from the normalized,
deduplicated target list onwards (file parsing and the NEA/TESS table
loads are I/O; `aliases` is the host-alias dict already extended with the
identity on every catalog host).  Returns
`(jwst_targets, jwst_aliases, missing)`; an `Except.error` models an
uncaught exception. -/
def load_trexolist_core (norm_targets : List Str) (aliases : List (Str × Str)) :
    Except PyErr (List Str × List (Str × Str) × List Str) := do
  let ja_miss := norm_targets.foldl (trexo_step aliases) ([], [])
  let ja := (ja_miss.1.map Prod.snd).foldl (fun d n => dictInsert d n n) ja_miss.1
  let _trexo_names ← norm_targets.foldlM
    (fun tn name =>
      match dictLookup ja name with
      | none => Except.error PyErr.keyError
      | some a => pure (dictInsert tn a ((dictLookup tn a).getD [] ++ [name])))
    ([] : List (Str × List Str))
  pure ((ja.map Prod.snd).eraseDups, ja, ja_miss.2.eraseDups)

/-! ### `Catalog.__init__` (assembly flags)

`self.planets = confirmed_planets + tess_planets` and, per planet,
`self.is_confirmed[i] = target not in tess_planets`. -/

/-- The assembled planet list of `Catalog.__init__`: confirmed entries
followed by TESS-candidate entries. -/
def assembled_planets (confirmed tess : List Str) : List Str :=
  confirmed ++ tess

/-- The `is_confirmed` flags of `Catalog.__init__`, one per assembled
planet: `target not in tess_planets`. -/
def is_confirmed_flags (confirmed tess : List Str) : List Bool :=
  (assembled_planets confirmed tess).map (fun t => decide (t ∉ tess))

/-! ### `fetch_catalogs`: duplicate ranking, gap-fill and derived triples

The numeric domain is abstract: `Arith α` packages the arithmetic
operations and the physical constants (`pyratbay.constants` and
`numpy`/`pyratbay` functions) that `solve_rp_rs`, `solve_a_rs`,
`solve_period_sma` and `pa.equilibrium_temp` apply to non-null values. -/

/-- Arithmetic operations and constants used by the derived-parameter
solvers of `fetch_catalogs.py`. -/
structure Arith (α : Type) where
  mul : α → α → α
  div : α → α → α
  sqrt : α → α
  sq : α → α
  cube : α → α
  cbrt : α → α
  two_pi : α
  grav : α
  au : α
  msun : α
  rsun : α
  rearth : α
  day : α
  zero : α
  equilibrium_temp : α → α → α → α

/-- One row of the NEA planetary-systems response, restricted to the
fields that the ranking, gap-fill and solvers read (the remaining columns
of the query — `ra`, `dec`, `sy_kmag`, `st_age`, ... — behave exactly like
`pl_masse` here: nullable payload that is only ever gap-filled). -/
structure Entry (α : Type) where
  pl_name : String
  default_flag : Nat
  st_teff : Option α
  st_logg : Option α
  st_met : Option α
  st_rad : Option α
  st_mass : Option α
  pl_trandur : Option α
  pl_orbper : Option α
  pl_orbsmax : Option α
  pl_rade : Option α
  pl_ratdor : Option α
  pl_ratror : Option α
  pl_masse : Option α
deriving DecidableEq

/-- `fetch_catalogs.solve_rp_rs`, with the three sequential `if`s of the
source (each guard reading the values assigned so far). -/
def solve_rp_rs {α : Type} (A : Arith α) (rp₀ rs₀ rprs₀ : Option α) :
    Option α × Option α × Option α :=
  let rp := match rp₀, rs₀, rprs₀ with
    | none, some rsv, some rpr => some (A.div (A.mul rpr (A.mul rsv A.rsun)) A.rearth)
    | _, _, _ => rp₀
  let rs := match rs₀, rp, rprs₀ with
    | none, some rpv, some rpr => some (A.div (A.div (A.mul rpv A.rearth) rpr) A.rsun)
    | _, _, _ => rs₀
  let rprs := match rprs₀, rp, rs with
    | none, some rpv, some rsv => some (A.div (A.mul rpv A.rearth) (A.mul rsv A.rsun))
    | _, _, _ => rprs₀
  (rp, rs, rprs)

/-- `fetch_catalogs.solve_a_rs`. -/
def solve_a_rs {α : Type} (A : Arith α) (a₀ rs₀ ars₀ : Option α) :
    Option α × Option α × Option α :=
  let a := match a₀, rs₀, ars₀ with
    | none, some rsv, some arsv => some (A.div (A.mul arsv (A.mul rsv A.rsun)) A.au)
    | _, _, _ => a₀
  let rs := match rs₀, a, ars₀ with
    | none, some av, some arsv => some (A.div (A.div (A.mul av A.au) arsv) A.rsun)
    | _, _, _ => rs₀
  let ars := match ars₀, a, rs with
    | none, some av, some rsv => some (A.div (A.mul av A.au) (A.mul rsv A.rsun))
    | _, _, _ => ars₀
  (a, rs, ars)

/-- `fetch_catalogs.solve_period_sma`: returns the (period, sma) pair,
bailing out unchanged when `mstar` is `None` or `0`. -/
def solve_period_sma {α : Type} [DecidableEq α] (A : Arith α)
    (period sma mstar : Option α) : Option α × Option α :=
  match mstar with
  | none => (period, sma)
  | some m =>
    if m = A.zero then (period, sma)
    else
      match period, sma with
      | none, some s =>
        (some (A.div
          (A.mul A.two_pi
            (A.sqrt (A.div (A.div (A.cube (A.mul s A.au)) A.grav) (A.mul m A.msun))))
          A.day), sma)
      | some p, none =>
        (period, some (A.div
          (A.cbrt (A.mul (A.mul (A.mul (A.sq (A.div (A.mul p A.day) A.two_pi)) A.grav) m) A.msun))
          A.au))
      | _, _ => (period, sma)

/-- `fetch_catalogs.complete_entry`: chain the three solvers over the
record fields, in source order (each later solve reading the fields the
earlier ones updated). -/
def complete_entry {α : Type} [DecidableEq α] (A : Arith α) (e : Entry α) :
    Entry α :=
  let r1 := solve_rp_rs A e.pl_rade e.st_rad e.pl_ratror
  let r2 := solve_a_rs A e.pl_orbsmax r1.2.1 e.pl_ratdor
  let r3 := solve_period_sma A e.pl_orbper r2.1 e.st_mass
  { e with
      pl_rade := r1.1, pl_ratror := r1.2.2,
      pl_orbsmax := r3.2, st_rad := r2.2.1, pl_ratdor := r2.2.2,
      pl_orbper := r3.1 }

/-- The missing-field penalty of `fetch_catalogs.rank_planets`: one point
per missing field, the sma/distance-ratio pair and the stellar-radius/
radius-ratio pair each counting as a single combined slot. -/
def penalty {α : Type} [DecidableEq α] (e : Entry α) : Nat :=
  (if e.st_teff = none then 1 else 0) +
  (if e.st_logg = none then 1 else 0) +
  (if e.st_met = none then 1 else 0) +
  (if e.pl_trandur = none then 1 else 0) +
  (if e.pl_rade = none then 1 else 0) +
  (if e.pl_orbsmax = none ∧ e.pl_ratdor = none then 1 else 0) +
  (if e.st_rad = none ∧ e.pl_ratror = none then 1 else 0)

/-- `rank_planets` composed with the iteration `for j in rank`: the
duplicates reordered ascending by penalty; `np.argsort` is modelled as a
stable sort (ties keep source order), the reading most favourable to the
specification. -/
def rank_sorted {α : Type} [DecidableEq α] (dups : List (Entry α)) : List (Entry α) :=
  dups.insertionSort (fun a b => penalty a ≤ penalty b)

/-- Does a row carry the NEA `default_flag`? -/
def isDefault {α : Type} (e : Entry α) : Bool :=
  e.default_flag == 1

/-- `def_flags.index(1)` and the split into base row and remaining
duplicates: the first default-flagged row, with the other rows in source
order; `none` models the `ValueError` of `list.index` when no row is
flagged. -/
def pick_default {α : Type} : List (Entry α) → Option (Entry α × List (Entry α))
  | [] => none
  | e :: es =>
    if isDefault e then some (e, es)
    else
      match pick_default es with
      | none => none
      | some (d, rest) => some (d, e :: rest)

/-- Gap-fill of one nullable field: keep the accumulated value unless it
is `None`. -/
def fillField {α : Type} (a b : Option α) : Option α :=
  match a with
  | some v => some v
  | none => b

/-- One gap-fill pass of `fetch_nea_confirmed_targets`: for every field
still `None` in the accumulating record, copy the duplicate's value. -/
def fillGaps {α : Type} (acc d : Entry α) : Entry α :=
  { acc with
      st_teff := fillField acc.st_teff d.st_teff,
      st_logg := fillField acc.st_logg d.st_logg,
      st_met := fillField acc.st_met d.st_met,
      st_rad := fillField acc.st_rad d.st_rad,
      st_mass := fillField acc.st_mass d.st_mass,
      pl_trandur := fillField acc.pl_trandur d.pl_trandur,
      pl_orbper := fillField acc.pl_orbper d.pl_orbper,
      pl_orbsmax := fillField acc.pl_orbsmax d.pl_orbsmax,
      pl_rade := fillField acc.pl_rade d.pl_rade,
      pl_ratdor := fillField acc.pl_ratdor d.pl_ratdor,
      pl_ratror := fillField acc.pl_ratror d.pl_ratror,
      pl_masse := fillField acc.pl_masse d.pl_masse }

/-- The per-planet merge of `fetch_nea_confirmed_targets` (lines 264-281):
complete the default-flagged base row, gap-fill from the remaining
duplicates in completeness-ranked order (each completed first), and
complete the result. -/
def merge_duplicates {α : Type} [DecidableEq α] (A : Arith α)
    (entries : List (Entry α)) : Option (Entry α) :=
  match pick_default entries with
  | none => none
  | some (base, dups) =>
    let merged := (rank_sorted dups).foldl
      (fun acc d => fillGaps acc (complete_entry A d)) (complete_entry A base)
    some (complete_entry A merged)

/-- The equilibrium-temperature computation of
`fetch_nea_confirmed_targets` (lines 295-308): `None` unless stellar
temperature, stellar radius and semi-major axis are all present, else
`pa.equilibrium_temp(st_teff, st_rad*pc.rsun, pl_orbsmax*pc.au)`. -/
def nea_teq {α : Type} (A : Arith α) (teff rad sma : Option α) : Option α :=
  match teff, rad, sma with
  | some t, some r, some s =>
    some (A.equilibrium_temp t (A.mul r A.rsun) (A.mul s A.au))
  | _, _, _ => none

/-- A concrete interpretation of the arithmetic over `ℤ`, used to witness
and refute the merge claims (the claims under study depend only on the
null-structure, never on the values these operations return). -/
def intOps : Arith ℤ where
  mul := (· * ·)
  div := (· * ·)
  sqrt := id
  sq := id
  cube := id
  cbrt := id
  two_pi := 6
  grav := 7
  au := 2
  msun := 3
  rsun := 4
  rearth := 5
  day := 8
  zero := 0
  equilibrium_temp := fun a b c => a + b + c

/-- An all-null duplicate row, for concrete tests. -/
def blankEntry : Entry ℤ where
  pl_name := "X b"
  default_flag := 0
  st_teff := none
  st_logg := none
  st_met := none
  st_rad := none
  st_mass := none
  pl_trandur := none
  pl_orbper := none
  pl_orbsmax := none
  pl_rade := none
  pl_ratdor := none
  pl_ratror := none
  pl_masse := none

/-- Number of `None` members of a triple of nullable values. -/
def missing3 {α : Type} (a b c : Option α) : Nat :=
  (if a.isNone then 1 else 0) + (if b.isNone then 1 else 0) +
  (if c.isNone then 1 else 0)

/-- The nullable fields of an `Entry`, as projections. -/
def fieldGetters {α : Type} : List (Entry α → Option α) :=
  [Entry.st_teff, Entry.st_logg, Entry.st_met, Entry.st_rad, Entry.st_mass,
   Entry.pl_trandur, Entry.pl_orbper, Entry.pl_orbsmax, Entry.pl_rade,
   Entry.pl_ratdor, Entry.pl_ratror, Entry.pl_masse]

/-- Count of non-null fields of a record. -/
def nonNullCount {α : Type} (e : Entry α) : Nat :=
  (fieldGetters.map (fun g => if (g e).isSome then 1 else 0)).sum

/-- `m` is at least as complete as `e`: every non-null field of `e` is
non-null in `m`. -/
def covers {α : Type} (m e : Entry α) : Prop :=
  ∀ g ∈ (fieldGetters : List (Entry α → Option α)),
    (g e).isSome = true → (g m).isSome = true

/-- `b` keeps every already-filled field of `a` unchanged. -/
def agreesOnSome {α : Type} (a b : Entry α) : Prop :=
  ∀ g ∈ (fieldGetters : List (Entry α → Option α)),
    (g a).isSome = true → g b = g a

/-! ## Helper lemmas -/

/-- Folding a step that can fail preserves an invariant of the
accumulator along any successful run. -/
theorem foldlM_except_inv {σ β ε : Type} (P : σ → Prop) (f : σ → β → Except ε σ)
    (l : List β) (init res : σ) (hinit : P init)
    (hstep : ∀ s b r, P s → f s b = .ok r → P r)
    (h : l.foldlM f init = .ok res) : P res := by
  induction l generalizing init with
  | nil =>
    simp only [List.foldlM_nil] at h
    cases h
    exact hinit
  | cons b t ih =>
    simp only [List.foldlM_cons] at h
    cases hfb : f init b with
    | error e => rw [hfb] at h; exact absurd h (by simp [Bind.bind, Except.bind])
    | ok s =>
      rw [hfb] at h
      simp only [Bind.bind, Except.bind] at h
      exact ih s (hstep init b s hinit hfb) h

/-- `dictInsert` never duplicates a key. -/
theorem dictInsert_keys_nodup {K V : Type} [DecidableEq K]
    (d : List (K × V)) (k : K) (v : V) (h : (d.map Prod.fst).Nodup) :
    ((dictInsert d k v).map Prod.fst).Nodup := by
  unfold dictInsert
  by_cases hany : d.any (fun kv => decide (kv.1 = k)) = true
  · rw [if_pos hany]
    have hmap : (d.map (fun kv => if kv.1 = k then (k, v) else kv)).map Prod.fst
        = d.map Prod.fst := by
      rw [List.map_map]
      refine List.map_congr_left ?_
      intro kv _
      by_cases hc : kv.1 = k <;> simp [hc]
    rw [hmap]
    exact h
  · rw [if_neg hany]
    rw [List.map_append]
    rw [List.nodup_append]
    refine ⟨h, by simp, ?_⟩
    intro a ha hb
    simp only [List.map_cons, List.map_nil, List.mem_singleton] at hb
    subst hb
    simp only [List.mem_map] at ha
    obtain ⟨kv, hkv, hfst⟩ := ha
    exact hany (List.any_eq_true.mpr ⟨kv, hkv, by simp [hfst]⟩)

/-- If a character does not occur in a string, the right-index scan
returns its accumulator. -/
theorem rIndexGo_not_mem (c : Char) (s : Str) (h : c ∉ s) :
    ∀ i acc, rIndexGo c i acc s = acc := by
  induction s with
  | nil => intro i acc; rfl
  | cons x xs ih =>
    intro i acc
    have hx : ¬ x = c := fun hc => h (hc ▸ List.mem_cons_self x xs)
    have hxs : c ∉ xs := fun hc => h (List.mem_cons_of_mem x hc)
    simp only [rIndexGo, if_neg hx]
    exact ih hxs (i + 1) acc

/-- `rindex` raises (returns `none`) exactly when the character is
absent. -/
theorem rIndexOf_eq_none (c : Char) (s : Str) (h : c ∉ s) :
    rIndexOf s c = none :=
  rIndexGo_not_mem c s h 0 none

/-! ## Claim C9: the letter-suffix classifier on short names -/

/-- Claim C9 counterexample: `is_letter` on the one-character name `"b"`
(shorter than two characters) raises an `IndexError` instead of returning
`false`. -/
theorem C9_counterexample :
    ("b".toList.length < 2) ∧
    is_letter "b".toList = .error .indexError := ⟨by decide, rfl⟩

/-- Claim C9 (corrected): on names shorter than two characters,
`is_letter` raises an `IndexError` for the empty name and for a
one-character lower-case name (where `name[-1].islower()` short-circuits
into reading `name[-2]`); it returns `false` without error only for a
one-character name that is not lower-case. -/
theorem C9_theorem :
    is_letter ([] : Str) = .error .indexError ∧
    ∀ c : Char, is_letter [c] =
      if c.isLower then .error .indexError else .ok false := by
  refine ⟨rfl, fun c => ?_⟩
  by_cases h : c.isLower <;>
    simp [is_letter, pyGet, h]

/-! ## Claim C5: idempotence of `normalize_name` -/

/-- Claim C5 counterexample: stripping the `-offset` decoration can
manufacture a fresh `GL` occurrence, which a second pass rewrites to
`GJ`; so `normalize_name` is not idempotent where defined. -/
theorem C5_counterexample :
    (normalize_name "ZG-offsetL".toList).bind normalize_name ≠
      normalize_name "ZG-offsetL".toList ∧
    normalize_name "ZG-offsetL".toList = some "ZGL".toList ∧
    normalize_name "ZGL".toList = some "ZGJ".toList := by
  refine ⟨?_, rfl, rfl⟩
  decide

set_option maxHeartbeats 2000000 in
/-- Claim C5 (corrected): idempotence fails in general (suffix stripping
can create a new occurrence of an earlier rewrite pattern), but holds on
representative catalog names of every rule family. -/
theorem C5_theorem :
    ((normalize_name "WASP-69 b".toList).bind normalize_name =
      normalize_name "WASP-69 b".toList) ∧
    ((normalize_name "HD 189733".toList).bind normalize_name =
      normalize_name "HD 189733".toList) ∧
    ((normalize_name "KEPLER-16 b".toList).bind normalize_name =
      normalize_name "KEPLER-16 b".toList) ∧
    ((normalize_name "TOI-741.01".toList).bind normalize_name =
      normalize_name "TOI-741.01".toList) ∧
    ((normalize_name "WOLF-503 b".toList).bind normalize_name =
      normalize_name "WOLF-503 b".toList) ∧
    ((normalize_name "GJ 1214 b".toList).bind normalize_name =
      normalize_name "GJ 1214 b".toList) ∧
    ((normalize_name "55CNC".toList).bind normalize_name =
      normalize_name "55CNC".toList) ∧
    ((normalize_name "2MASS-J0730".toList).bind normalize_name =
      normalize_name "2MASS-J0730".toList) ∧
    ((normalize_name "CD-38 2551".toList).bind normalize_name =
      normalize_name "CD-38 2551".toList) :=
  ⟨rfl, rfl, rfl, rfl, rfl, rfl, rfl, rfl, rfl⟩

/-! ## Claim C8: unresolved observation-log hosts -/

/-- Claim C8: an observation-log host that resolves to no catalog host is
appended to the missing list but then makes the re-keying loop of
`load_trexolist_table` throw a `KeyError` (the loop reads
`jwst_aliases[name]` for every normalized name, missing ones included),
so the load aborts instead of completing. -/
theorem C8_theorem :
    load_trexolist_core ["Zorro".toList] [] = .error .keyError ∧
    ∀ res, load_trexolist_core ["Zorro".toList] [] ≠ .ok res := by
  refine ⟨rfl, fun res h => ?_⟩
  rw [show load_trexolist_core ["Zorro".toList] [] = .error .keyError from rfl]
    at h
  cases h

/-! ## Claim C1: a planet named in both input lists -/

/-- Claim C1 counterexample: with the same canonical planet name in both
the confirmed and the TESS-candidate input lists, the assembled catalog
holds two records for it and flags both as not confirmed
(`is_confirmed = target not in tess_planets`), contradicting the claimed
single confirmed record. -/
theorem C1_counterexample :
    (assembled_planets ["X b".toList] ["X b".toList]).count "X b".toList = 2 ∧
    is_confirmed_flags ["X b".toList] ["X b".toList] = [false, false] := by
  exact ⟨by decide, by decide⟩

/-- Claim C1 (corrected): a planet name occurring in the TESS-candidate
input list appears in the assembled list once per occurrence in each
source (duplicates are kept, not collapsed), and every record carrying
that name is flagged `is_confirmed = false`, because the flag is computed
as non-membership in the candidate list. -/
theorem C1_theorem (confirmed tess : List Str) (name : Str)
    (h : name ∈ tess) :
    (assembled_planets confirmed tess).count name =
      confirmed.count name + tess.count name ∧
    ∀ pr ∈ (assembled_planets confirmed tess).zip
        (is_confirmed_flags confirmed tess),
      pr.1 = name → pr.2 = false := by
  constructor
  · exact List.count_append name confirmed tess
  · intro pr hpr h1
    have hzip : (assembled_planets confirmed tess).zip
        (is_confirmed_flags confirmed tess) =
        (assembled_planets confirmed tess).map
          (fun a => (a, decide (a ∉ tess))) := by
      conv_lhs =>
        rw [show assembled_planets confirmed tess =
          (assembled_planets confirmed tess).map id from
            (List.map_id _).symm]
      rw [is_confirmed_flags, List.zip_map']
      simp
    rw [hzip] at hpr
    obtain ⟨a, _, rfl⟩ := List.mem_map.mp hpr
    simp only at h1
    subst h1
    simp [h]

/-- Witness for C1 at a concrete duplicated name. -/
theorem C1_witness :
    (assembled_planets ["X b".toList] ["X b".toList]).count "X b".toList =
      List.count "X b".toList ["X b".toList] +
        List.count "X b".toList ["X b".toList] :=
  C1_theorem ["X b".toList] ["X b".toList] "X b".toList (by decide) |>.1

/-! ## Claim C3: a duplicated alias in the persisted table -/

/-- Claim C3 counterexample: the alias `"dup x"` mapped to two different
canonicals in the table does not raise; `load_aliases` silently keeps the
last-seen canonical. -/
theorem C3_counterexample :
    load_aliases false
      [("Canon A".toList, ["dup x".toList]),
       ("Canon B".toList, ["dup x".toList])] =
    .ok [("dup x".toList, "Canon B".toList)] := by rfl

/-- Claim C3 (corrected): a duplicated alias is not a load-time error;
`load_aliases` silently overwrites, keeping the last-seen canonical.  The
invariant that survives is the weaker second half of the claim: any
successfully built alias index is functional — no alias key occurs twice. -/
theorem C3_theorem (as_hosts : Bool) (lines : List (Str × List Str))
    (d : List (Str × Str)) (h : load_aliases as_hosts lines = .ok d) :
    (d.map Prod.fst).Nodup := by
  refine foldlM_except_inv (fun d => (d.map Prod.fst).Nodup) _ lines [] d
    (by simp) ?_ h
  intro s line r hs hline
  simp only [bind, Except.bind] at hline
  cases hname : parse_name as_hosts line.1 with
  | error e => rw [hname] at hline; cases hline
  | ok name =>
    rw [hname] at hline
    refine foldlM_except_inv (fun d => (d.map Prod.fst).Nodup) _ line.2 s r
      hs ?_ hline
    intro s' al r' hs' hal
    simp only [bind, Except.bind] at hal
    cases hpa : parse_name as_hosts al with
    | error e => rw [hpa] at hal; cases hal
    | ok pa =>
      simp only [hpa] at hal
      by_cases hne : pa ≠ name
      · rw [if_pos hne] at hal
        cases hal
        exact dictInsert_keys_nodup s' pa name hs'
      · rw [if_neg hne] at hal
        cases hal
        exact hs'

/-- Witness for C3 on a concrete successfully loaded table. -/
theorem C3_witness :
    (([("dup x".toList, "Canon B".toList)] : List (Str × Str)).map
      Prod.fst).Nodup :=
  C3_theorem false
    [("Canon A".toList, ["dup x".toList]),
     ("Canon B".toList, ["dup x".toList])] _ rfl

/-! ## Claim C10: host truncation on suffix-less names -/

/-- Claim C10 counterexample: for the bare one-character lower-case name
`"b"` (no letter suffix, no dot), `load_aliases(as_hosts=True)` raises an
`IndexError` from inside `is_letter`, not the claimed `ValueError` from
`rindex`. -/
theorem C10_counterexample :
    load_aliases true [("b".toList, ["X b".toList])] = .error .indexError ∧
    PyErr.indexError ≠ PyErr.valueError := ⟨rfl, by decide⟩

/-- Claim C10 (corrected): when the letter-suffix test itself succeeds
and returns `false` (every name of length at least two without the
blank-plus-lower-case ending, and bare non-lower one-character names) and
the name has no dot, host truncation raises a `ValueError` from `rindex`
and `load_aliases(as_hosts=True)` propagates it; but an empty or bare
lower-case one-character name raises an `IndexError` from `is_letter`
before `rindex` is reached. -/
theorem C10_theorem (name : Str) (hlet : is_letter name = .ok false)
    (hdot : '.' ∉ name) (als : List Str) :
    parse_host name = .error .valueError ∧
    load_aliases true [(name, als)] = .error .valueError := by
  have hparse : parse_host name = .error .valueError := by
    rw [parse_host, hlet, rIndexOf_eq_none '.' name hdot]
  refine ⟨hparse, ?_⟩
  simp [load_aliases, parse_name, hparse, bind, Except.bind]

/-- Witness for C10 at the suffix-less host name `"HD 189733"`. -/
theorem C10_witness :
    parse_host "HD 189733".toList = .error .valueError ∧
    load_aliases true [("HD 189733".toList, [])] = .error .valueError :=
  C10_theorem "HD 189733".toList rfl (by decide) []

/-! ## Solver preservation lemmas (shared by C6 and C7) -/

theorem solve_rp_rs_fst {α : Type} (A : Arith α) (rp rs rprs : Option α)
    (h : rp.isSome = true) : (solve_rp_rs A rp rs rprs).1 = rp := by
  cases rp with
  | none => cases h
  | some v => cases rs <;> cases rprs <;> simp [solve_rp_rs]

theorem solve_rp_rs_snd {α : Type} (A : Arith α) (rp rs rprs : Option α)
    (h : rs.isSome = true) : (solve_rp_rs A rp rs rprs).2.1 = rs := by
  cases rs with
  | none => cases h
  | some v => cases rp <;> cases rprs <;> simp [solve_rp_rs]

theorem solve_rp_rs_thd {α : Type} (A : Arith α) (rp rs rprs : Option α)
    (h : rprs.isSome = true) : (solve_rp_rs A rp rs rprs).2.2 = rprs := by
  cases rprs with
  | none => cases h
  | some v => cases rp <;> cases rs <;> simp [solve_rp_rs]

theorem solve_a_rs_fst {α : Type} (A : Arith α) (a rs ars : Option α)
    (h : a.isSome = true) : (solve_a_rs A a rs ars).1 = a := by
  cases a with
  | none => cases h
  | some v => cases rs <;> cases ars <;> simp [solve_a_rs]

theorem solve_a_rs_snd {α : Type} (A : Arith α) (a rs ars : Option α)
    (h : rs.isSome = true) : (solve_a_rs A a rs ars).2.1 = rs := by
  cases rs with
  | none => cases h
  | some v => cases a <;> cases ars <;> simp [solve_a_rs]

theorem solve_a_rs_thd {α : Type} (A : Arith α) (a rs ars : Option α)
    (h : ars.isSome = true) : (solve_a_rs A a rs ars).2.2 = ars := by
  cases ars with
  | none => cases h
  | some v => cases a <;> cases rs <;> simp [solve_a_rs]

theorem solve_period_sma_fst {α : Type} [DecidableEq α] (A : Arith α)
    (p s m : Option α) (h : p.isSome = true) :
    (solve_period_sma A p s m).1 = p := by
  cases p with
  | none => cases h
  | some pv =>
    cases m with
    | none => rfl
    | some mv =>
      by_cases hm : mv = A.zero <;> cases s <;> simp [solve_period_sma, hm]

theorem solve_period_sma_snd {α : Type} [DecidableEq α] (A : Arith α)
    (p s m : Option α) (h : s.isSome = true) :
    (solve_period_sma A p s m).2 = s := by
  cases s with
  | none => cases h
  | some sv =>
    cases m with
    | none => rfl
    | some mv =>
      by_cases hm : mv = A.zero <;> cases p <;> simp [solve_period_sma, hm]

/-! ## Claim C7: each solver is a pure algebraic closure -/

/-- Claim C7: each derived-parameter solver fills a member only when it is
the single missing member of its triple with the other two known (for the
Kepler triple the code additionally requires a non-zero stellar mass and
never fills the mass itself, which the claim's `only when` permits); when
zero or at least two members are missing, everything is returned
unchanged; and the equilibrium temperature is non-null exactly when
stellar temperature, stellar radius and semi-major axis are all present. -/
theorem C7_theorem {α : Type} [DecidableEq α] (A : Arith α) :
    (∀ rp rs rprs : Option α, missing3 rp rs rprs ≠ 1 →
      solve_rp_rs A rp rs rprs = (rp, rs, rprs)) ∧
    (∀ a rs ars : Option α, missing3 a rs ars ≠ 1 →
      solve_a_rs A a rs ars = (a, rs, ars)) ∧
    (∀ p s m : Option α, missing3 p s m ≠ 1 →
      solve_period_sma A p s m = (p, s)) ∧
    (∀ rp rs rprs : Option α, (solve_rp_rs A rp rs rprs).1 ≠ rp →
      rp = none ∧ rs.isSome = true ∧ rprs.isSome = true ∧
      (solve_rp_rs A rp rs rprs).2.1 = rs ∧
      (solve_rp_rs A rp rs rprs).2.2 = rprs) ∧
    (∀ rp rs rprs : Option α, (solve_rp_rs A rp rs rprs).2.1 ≠ rs →
      rs = none ∧ rp.isSome = true ∧ rprs.isSome = true ∧
      (solve_rp_rs A rp rs rprs).1 = rp ∧
      (solve_rp_rs A rp rs rprs).2.2 = rprs) ∧
    (∀ rp rs rprs : Option α, (solve_rp_rs A rp rs rprs).2.2 ≠ rprs →
      rprs = none ∧ rp.isSome = true ∧ rs.isSome = true ∧
      (solve_rp_rs A rp rs rprs).1 = rp ∧
      (solve_rp_rs A rp rs rprs).2.1 = rs) ∧
    (∀ a rs ars : Option α, (solve_a_rs A a rs ars).1 ≠ a →
      a = none ∧ rs.isSome = true ∧ ars.isSome = true ∧
      (solve_a_rs A a rs ars).2.1 = rs ∧
      (solve_a_rs A a rs ars).2.2 = ars) ∧
    (∀ a rs ars : Option α, (solve_a_rs A a rs ars).2.1 ≠ rs →
      rs = none ∧ a.isSome = true ∧ ars.isSome = true ∧
      (solve_a_rs A a rs ars).1 = a ∧
      (solve_a_rs A a rs ars).2.2 = ars) ∧
    (∀ a rs ars : Option α, (solve_a_rs A a rs ars).2.2 ≠ ars →
      ars = none ∧ a.isSome = true ∧ rs.isSome = true ∧
      (solve_a_rs A a rs ars).1 = a ∧
      (solve_a_rs A a rs ars).2.1 = rs) ∧
    (∀ p s m : Option α, (solve_period_sma A p s m).1 ≠ p →
      p = none ∧ s.isSome = true ∧ m.isSome = true ∧
      (solve_period_sma A p s m).2 = s) ∧
    (∀ p s m : Option α, (solve_period_sma A p s m).2 ≠ s →
      s = none ∧ p.isSome = true ∧ m.isSome = true ∧
      (solve_period_sma A p s m).1 = p) ∧
    (∀ t r s : Option α, (nea_teq A t r s).isSome = true ↔
      (t.isSome = true ∧ r.isSome = true ∧ s.isSome = true)) := by
  refine ⟨?_, ?_, ?_, ?_, ?_, ?_, ?_, ?_, ?_, ?_, ?_, ?_⟩
  · intro a b c h
    cases a <;> cases b <;> cases c <;> simp_all [solve_rp_rs, missing3]
  · intro a b c h
    cases a <;> cases b <;> cases c <;> simp_all [solve_a_rs, missing3]
  · intro p s m h
    cases m with
    | none => rfl
    | some mv =>
      by_cases hm : mv = A.zero
      · simp [solve_period_sma, hm]
      · cases p <;> cases s <;>
          simp_all [solve_period_sma, hm, missing3]
  · intro a b c h
    cases a <;> cases b <;> cases c <;> simp_all [solve_rp_rs]
  · intro a b c h
    cases a <;> cases b <;> cases c <;> simp_all [solve_rp_rs]
  · intro a b c h
    cases a <;> cases b <;> cases c <;> simp_all [solve_rp_rs]
  · intro a b c h
    cases a <;> cases b <;> cases c <;> simp_all [solve_a_rs]
  · intro a b c h
    cases a <;> cases b <;> cases c <;> simp_all [solve_a_rs]
  · intro a b c h
    cases a <;> cases b <;> cases c <;> simp_all [solve_a_rs]
  · intro p s m h
    cases m with
    | none => exact absurd rfl h
    | some mv =>
      by_cases hm : mv = A.zero
      · simp [solve_period_sma, hm] at h
      · cases p <;> cases s <;> simp_all [solve_period_sma, hm]
  · intro p s m h
    cases m with
    | none => exact absurd rfl h
    | some mv =>
      by_cases hm : mv = A.zero
      · simp [solve_period_sma, hm] at h
      · cases p <;> cases s <;> simp_all [solve_period_sma, hm]
  · intro t r s
    cases t <;> cases r <;> cases s <;> simp [nea_teq]

/-- Witness for C7: a doubly-missing radius triple is returned unchanged,
a complete Kepler triple is returned unchanged, and the equilibrium
temperature of a complete input is non-null. -/
theorem C7_witness :
    solve_rp_rs intOps none none (some 1) = (none, none, some 1) ∧
    solve_period_sma intOps (some 2) (some 3) (some 1) = (some 2, some 3) ∧
    (nea_teq intOps (some 1) (some 2) (some 3)).isSome = true :=
  ⟨(C7_theorem intOps).1 none none (some 1) (by decide),
   (C7_theorem intOps).2.2.1 (some 2) (some 3) (some 1) (by decide),
   ((C7_theorem intOps).2.2.2.2.2.2.2.2.2.2.2 (some 1) (some 2) (some 3)).mpr
     ⟨rfl, rfl, rfl⟩⟩

/-! ## Gap-fill cover lemmas (C6) -/

theorem fillField_of_isSome {α : Type} (a b : Option α)
    (h : a.isSome = true) : fillField a b = a := by
  cases a with
  | none => cases h
  | some v => rfl

theorem fillField_isSome_right {α : Type} (a b : Option α)
    (h : b.isSome = true) : (fillField a b).isSome = true := by
  cases a with
  | none => exact h
  | some v => rfl

/-- Gap-fill never overwrites an already-filled field. -/
theorem fillGaps_agrees {α : Type} (acc d : Entry α) :
    agreesOnSome acc (fillGaps acc d) := by
  intro g hg h
  simp only [fieldGetters, List.mem_cons, List.not_mem_nil, or_false] at hg
  rcases hg with rfl | rfl | rfl | rfl | rfl | rfl | rfl | rfl | rfl | rfl |
    rfl | rfl <;>
    exact fillField_of_isSome _ _ h

theorem agrees_covers {α : Type} {a b : Entry α} (h : agreesOnSome a b) :
    covers b a := by
  intro g hg hs
  rw [h g hg hs]
  exact hs

theorem covers_trans {α : Type} {a b c : Entry α}
    (h1 : covers a b) (h2 : covers b c) : covers a c :=
  fun g hg hs => h1 g hg (h2 g hg hs)

theorem covers_refl {α : Type} (a : Entry α) : covers a a :=
  fun _ _ hs => hs

/-- Gap-fill absorbs every non-null field of the duplicate. -/
theorem fillGaps_covers_right {α : Type} (acc d : Entry α) :
    covers (fillGaps acc d) d := by
  intro g hg h
  simp only [fieldGetters, List.mem_cons, List.not_mem_nil, or_false] at hg
  rcases hg with rfl | rfl | rfl | rfl | rfl | rfl | rfl | rfl | rfl | rfl |
    rfl | rfl <;>
    exact fillField_isSome_right _ _ h

/-- `complete_entry` keeps every already-filled field unchanged. -/
theorem complete_entry_agrees {α : Type} [DecidableEq α] (A : Arith α)
    (e : Entry α) : agreesOnSome e (complete_entry A e) := by
  intro g hg h
  simp only [fieldGetters, List.mem_cons, List.not_mem_nil, or_false] at hg
  rcases hg with rfl | rfl | rfl | rfl | rfl | rfl | rfl | rfl | rfl | rfl |
    rfl | rfl
  · rfl
  · rfl
  · rfl
  · show (solve_a_rs A e.pl_orbsmax
        (solve_rp_rs A e.pl_rade e.st_rad e.pl_ratror).2.1 e.pl_ratdor).2.1 =
      e.st_rad
    rw [solve_rp_rs_snd A e.pl_rade e.st_rad e.pl_ratror h]
    exact solve_a_rs_snd A _ _ _ h
  · rfl
  · rfl
  · show (solve_period_sma A e.pl_orbper
        (solve_a_rs A e.pl_orbsmax
          (solve_rp_rs A e.pl_rade e.st_rad e.pl_ratror).2.1 e.pl_ratdor).1
        e.st_mass).1 = e.pl_orbper
    exact solve_period_sma_fst A _ _ _ h
  · show (solve_period_sma A e.pl_orbper
        (solve_a_rs A e.pl_orbsmax
          (solve_rp_rs A e.pl_rade e.st_rad e.pl_ratror).2.1 e.pl_ratdor).1
        e.st_mass).2 = e.pl_orbsmax
    rw [solve_a_rs_fst A e.pl_orbsmax _ e.pl_ratdor h]
    exact solve_period_sma_snd A _ _ _ h
  · show (solve_rp_rs A e.pl_rade e.st_rad e.pl_ratror).1 = e.pl_rade
    exact solve_rp_rs_fst A _ _ _ h
  · show (solve_a_rs A e.pl_orbsmax
        (solve_rp_rs A e.pl_rade e.st_rad e.pl_ratror).2.1 e.pl_ratdor).2.2 =
      e.pl_ratdor
    exact solve_a_rs_thd A _ _ _ h
  · show (solve_rp_rs A e.pl_rade e.st_rad e.pl_ratror).2.2 = e.pl_ratror
    exact solve_rp_rs_thd A _ _ _ h
  · rfl

theorem complete_entry_covers {α : Type} [DecidableEq α] (A : Arith α)
    (e : Entry α) : covers (complete_entry A e) e :=
  agrees_covers (complete_entry_agrees A e)

/-- The gap-fill fold only grows the accumulating record. -/
theorem mergeFold_covers_init {α : Type} [DecidableEq α] (A : Arith α) :
    ∀ (L : List (Entry α)) (init : Entry α),
      covers (L.foldl (fun acc d => fillGaps acc (complete_entry A d)) init)
        init := by
  intro L
  induction L with
  | nil => intro init; exact covers_refl init
  | cons x t ih =>
    intro init
    exact covers_trans (ih _) (agrees_covers (fillGaps_agrees init _))

/-- The gap-fill fold absorbs every processed duplicate. -/
theorem mergeFold_covers_mem {α : Type} [DecidableEq α] (A : Arith α) :
    ∀ (L : List (Entry α)) (init x : Entry α), x ∈ L →
      covers (L.foldl (fun acc d => fillGaps acc (complete_entry A d)) init)
        x := by
  intro L
  induction L with
  | nil => intro init x hx; cases hx
  | cons y t ih =>
    intro init x hx
    rcases List.mem_cons.mp hx with rfl | hx'
    · refine covers_trans (mergeFold_covers_init A t _) ?_
      exact covers_trans (fillGaps_covers_right init _)
        (complete_entry_covers A x)
    · exact ih _ x hx'

/-- The split of `pick_default` loses no row. -/
theorem pick_default_mem {α : Type} :
    ∀ (l : List (Entry α)) (b : Entry α) (rest : List (Entry α)),
      pick_default l = some (b, rest) → ∀ e ∈ l, e = b ∨ e ∈ rest := by
  intro l
  induction l with
  | nil => intro b rest h; cases h
  | cons x xs ih =>
    intro b rest h e he
    by_cases hx : isDefault x = true
    · simp only [pick_default, if_pos hx, Option.some.injEq, Prod.mk.injEq]
        at h
      obtain ⟨rfl, rfl⟩ := h
      rcases List.mem_cons.mp he with rfl | he'
      · left; rfl
      · right; exact he'
    · simp only [pick_default, if_neg hx] at h
      cases hpd : pick_default xs with
      | none => rw [hpd] at h; cases h
      | some pr =>
        obtain ⟨d, rest'⟩ := pr
        rw [hpd] at h
        simp only [Option.some.injEq, Prod.mk.injEq] at h
        obtain ⟨rfl, rfl⟩ := h
        rcases List.mem_cons.mp he with rfl | he'
        · right; exact List.mem_cons_self _ _
        · rcases ih d rest' hpd e he' with h1 | h2
          · left; exact h1
          · right; exact List.mem_cons_of_mem _ h2

/-- A more complete record has at least as many non-null fields. -/
theorem covers_nonNullCount {α : Type} {m e : Entry α} (h : covers m e) :
    nonNullCount e ≤ nonNullCount m := by
  refine List.sum_le_sum ?_
  intro g hg
  by_cases hs : (g e).isSome = true
  · simp [hs, h g hg hs]
  · simp only [Bool.not_eq_true] at hs
    simp [hs]

/-! ## Claim C6: gap-fill monotonicity and non-destructiveness -/

/-- Claim C6: a successful merge yields a record with at least as many
non-null fields as every individual input row (base row included), and
one gap-fill pass never changes an already-filled field of the
accumulating record. -/
theorem C6_theorem {α : Type} [DecidableEq α] (A : Arith α)
    (l : List (Entry α)) (m : Entry α) (h : merge_duplicates A l = some m) :
    (∀ e ∈ l, nonNullCount e ≤ nonNullCount m) ∧
    (∀ acc d : Entry α, agreesOnSome acc (fillGaps acc d)) := by
  refine ⟨?_, fun acc d => fillGaps_agrees acc d⟩
  intro e he
  cases hpd : pick_default l with
  | none => rw [merge_duplicates, hpd] at h; cases h
  | some pr =>
    obtain ⟨base, dups⟩ := pr
    rw [merge_duplicates, hpd] at h
    simp only [Option.some.injEq] at h
    subst h
    have hfold : covers
        ((rank_sorted dups).foldl
          (fun acc d => fillGaps acc (complete_entry A d))
          (complete_entry A base)) e := by
      rcases pick_default_mem l base dups hpd e he with rfl | he'
      · exact covers_trans (mergeFold_covers_init A _ _)
          (complete_entry_covers A e)
      · refine mergeFold_covers_mem A _ _ e ?_
        exact ((List.perm_insertionSort _ dups).mem_iff).mpr he'
    exact covers_nonNullCount (covers_trans (complete_entry_covers A _) hfold)

/-- Witness for C6: merging a flagged empty base with one duplicate
carrying a metallicity value absorbs that value. -/
theorem C6_witness :
    nonNullCount ({ blankEntry with st_met := some 5 } : Entry ℤ) ≤
      nonNullCount ({ blankEntry with default_flag := 1, st_met := some 5 } :
        Entry ℤ) :=
  (C6_theorem intOps
      [{ blankEntry with default_flag := 1 },
       { blankEntry with st_met := some 5 }]
      { blankEntry with default_flag := 1, st_met := some 5 } rfl).1
    { blankEntry with st_met := some 5 }
    (List.mem_cons_of_mem _ (List.mem_cons_self _ _))

/-! ## Default-row selection lemmas (C4) -/

/-- With exactly one default-flagged row, `pick_default` returns that row
and the remaining rows in order. -/
theorem pick_default_of_unique {α : Type} :
    ∀ l : List (Entry α), l.countP isDefault = 1 →
      ∃ d, isDefault d = true ∧ d ∈ l ∧
        (∀ x ∈ l, isDefault x = true → x = d) ∧
        pick_default l = some (d, l.filter (fun e => !isDefault e)) := by
  intro l
  induction l with
  | nil => intro h; simp at h
  | cons x xs ih =>
    intro h
    rw [List.countP_cons] at h
    by_cases hx : isDefault x = true
    · rw [if_pos hx] at h
      have hz : xs.countP isDefault = 0 := by omega
      have hall : ∀ a ∈ xs, ¬ isDefault a = true := List.countP_eq_zero.mp hz
      refine ⟨x, hx, List.mem_cons_self _ _, ?_, ?_⟩
      · intro y hy hyd
        rcases List.mem_cons.mp hy with rfl | hy'
        · rfl
        · exact absurd hyd (hall y hy')
      · have hfs : xs.filter (fun e => !isDefault e) = xs :=
          List.filter_eq_self.mpr (fun a ha => by simp [hall a ha])
        simp [pick_default, hx, List.filter_cons, hfs]
    · rw [if_neg hx] at h
      have h1 : xs.countP isDefault = 1 := by omega
      obtain ⟨d, hd, hdmem, huniq, hpd⟩ := ih h1
      refine ⟨d, hd, List.mem_cons_of_mem _ hdmem, ?_, ?_⟩
      · intro y hy hyd
        rcases List.mem_cons.mp hy with rfl | hy'
        · exact absurd hyd hx
        · exact huniq y hy' hyd
      · simp [pick_default, hx, hpd, List.filter_cons]

/-! ## Claim C4: permutation invariance of the merge -/

/-- Claim C4 counterexample: two duplicates with equal missing-field
penalty but different metallicity values; swapping their order changes
the merged record even under a stable ranking sort, so the merge is not
permutation-invariant. -/
theorem C4_counterexample :
    ([{ blankEntry with default_flag := 1 },
      { blankEntry with st_met := some 5 },
      { blankEntry with st_met := some 7 }] : List (Entry ℤ)).Perm
      [{ blankEntry with default_flag := 1 },
       { blankEntry with st_met := some 7 },
       { blankEntry with st_met := some 5 }] ∧
    merge_duplicates intOps
      [{ blankEntry with default_flag := 1 },
       { blankEntry with st_met := some 5 },
       { blankEntry with st_met := some 7 }] ≠
    merge_duplicates intOps
      [{ blankEntry with default_flag := 1 },
       { blankEntry with st_met := some 7 },
       { blankEntry with st_met := some 5 }] := by
  refine ⟨List.Perm.cons _ (List.Perm.swap _ _ _), ?_⟩
  decide

/-- Claim C4 (corrected): the merge is permutation-invariant only when
the duplicate rows below the default one have pairwise distinct
missing-field penalties (and exactly one row carries the default flag);
with tied penalties the gap-fill order, hence the result, can depend on
the input order. -/
theorem C4_theorem {α : Type} [DecidableEq α] (A : Arith α)
    (l1 l2 : List (Entry α)) (hperm : l1.Perm l2)
    (hdef : l1.countP isDefault = 1)
    (hpen : (l1.filter (fun e => !isDefault e)).Pairwise
      (fun a b => penalty a ≠ penalty b)) :
    merge_duplicates A l1 = merge_duplicates A l2 := by
  have hdef2 : l2.countP isDefault = 1 := by
    rw [← List.Perm.countP_eq isDefault hperm]
    exact hdef
  obtain ⟨d1, hd1, hm1, hu1, hp1⟩ := pick_default_of_unique l1 hdef
  obtain ⟨d2, hd2, hm2, hu2, hp2⟩ := pick_default_of_unique l2 hdef2
  have hdd : d2 = d1 := hu1 d2 (hperm.mem_iff.mpr hm2) hd2
  subst hdd
  have hfperm : (l1.filter (fun e => !isDefault e)).Perm
      (l2.filter (fun e => !isDefault e)) := hperm.filter _
  have hsymm : ∀ {a b : Entry α},
      penalty a ≠ penalty b → penalty b ≠ penalty a :=
    fun h1 h2 => h1 h2.symm
  have hpen2 : (l2.filter (fun e => !isDefault e)).Pairwise
      (fun a b => penalty a ≠ penalty b) :=
    (List.Perm.pairwise_iff hsymm hfperm).mp hpen
  haveI hto : IsTotal (Entry α) (fun a b => penalty a ≤ penalty b) :=
    ⟨fun a b => le_total _ _⟩
  haveI htr : IsTrans (Entry α) (fun a b => penalty a ≤ penalty b) :=
    ⟨fun a b c hab hbc => le_trans hab hbc⟩
  haveI has : IsAntisymm (Entry α) (fun a b => penalty a < penalty b) :=
    ⟨fun a b h1 h2 => absurd h2 (Nat.lt_asymm h1)⟩
  have hstrict1 : (rank_sorted (l1.filter (fun e => !isDefault e))).Pairwise
      (fun a b => penalty a < penalty b) := by
    have hs : (rank_sorted (l1.filter (fun e => !isDefault e))).Pairwise
        (fun a b => penalty a ≤ penalty b) :=
      List.sorted_insertionSort _ _
    have hne : (rank_sorted (l1.filter (fun e => !isDefault e))).Pairwise
        (fun a b => penalty a ≠ penalty b) :=
      (List.Perm.pairwise_iff hsymm
        (List.perm_insertionSort _ _)).mpr hpen
    exact (hs.and hne).imp (fun hab => lt_of_le_of_ne hab.1 hab.2)
  have hstrict2 : (rank_sorted (l2.filter (fun e => !isDefault e))).Pairwise
      (fun a b => penalty a < penalty b) := by
    have hs : (rank_sorted (l2.filter (fun e => !isDefault e))).Pairwise
        (fun a b => penalty a ≤ penalty b) :=
      List.sorted_insertionSort _ _
    have hne : (rank_sorted (l2.filter (fun e => !isDefault e))).Pairwise
        (fun a b => penalty a ≠ penalty b) :=
      (List.Perm.pairwise_iff hsymm
        (List.perm_insertionSort _ _)).mpr hpen2
    exact (hs.and hne).imp (fun hab => lt_of_le_of_ne hab.1 hab.2)
  have hperm_sorted : (rank_sorted (l1.filter (fun e => !isDefault e))).Perm
      (rank_sorted (l2.filter (fun e => !isDefault e))) :=
    (List.perm_insertionSort _ _).trans
      (hfperm.trans (List.perm_insertionSort _ _).symm)
  have hsorteq : rank_sorted (l1.filter (fun e => !isDefault e)) =
      rank_sorted (l2.filter (fun e => !isDefault e)) :=
    List.eq_of_perm_of_sorted hperm_sorted hstrict1 hstrict2
  simp only [merge_duplicates, hp1, hp2]
  rw [hsorteq]

/-- Witness for C4 at a concrete two-row duplicate set with distinct
penalties. -/
theorem C4_witness :
    merge_duplicates intOps
      [{ blankEntry with default_flag := 1 },
       { blankEntry with st_met := some 5 }] =
    merge_duplicates intOps
      [{ blankEntry with st_met := some 5 },
       { blankEntry with default_flag := 1 }] :=
  C4_theorem intOps _ _ (List.Perm.swap _ _ _) (by decide) (by decide)

/-! ## Length lemmas for `normalize_name` (C2) -/

/-- A replacement whose pattern is no longer than its replacement never
shrinks the string. -/
theorem replaceGo_length_le (pat repl : Str) (hlen : pat.length ≤ repl.length) :
    ∀ (fuel : Nat) (s : Str), s.length ≤ (replaceGo pat repl fuel s).length := by
  intro fuel
  induction fuel with
  | zero =>
    intro s
    cases s with
    | nil => simp [replaceGo]
    | cons c cs => simp [replaceGo]
  | succ n ih =>
    intro s
    cases s with
    | nil => simp [replaceGo]
    | cons c cs =>
      by_cases hp : pat ≠ [] ∧ pat.isPrefixOf (c :: cs)
      · have hple : pat.length ≤ cs.length + 1 := by
          have := List.IsPrefix.length_le (List.isPrefixOf_iff_prefix.mp hp.2)
          simpa using this
        have hpat1 : 1 ≤ pat.length :=
          List.length_pos.mpr hp.1
        have h1 := ih (cs.drop (pat.length - 1))
        rw [List.length_drop] at h1
        simp only [replaceGo, if_pos hp, List.length_append, List.length_cons]
        omega
      · have h1 := ih cs
        simp only [replaceGo, if_neg hp, List.length_cons]
        omega

/-- A same-length replacement preserves the string length exactly. -/
theorem replaceGo_length_eq (pat repl : Str) (hlen : pat.length = repl.length) :
    ∀ (fuel : Nat) (s : Str), (replaceGo pat repl fuel s).length = s.length := by
  intro fuel
  induction fuel with
  | zero =>
    intro s
    cases s with
    | nil => simp [replaceGo]
    | cons c cs => simp [replaceGo]
  | succ n ih =>
    intro s
    cases s with
    | nil => simp [replaceGo]
    | cons c cs =>
      by_cases hp : pat ≠ [] ∧ pat.isPrefixOf (c :: cs)
      · have hple : pat.length ≤ cs.length + 1 := by
          have := List.IsPrefix.length_le (List.isPrefixOf_iff_prefix.mp hp.2)
          simpa using this
        have hpat1 : 1 ≤ pat.length :=
          List.length_pos.mpr hp.1
        have h1 := ih (cs.drop (pat.length - 1))
        rw [List.length_drop] at h1
        simp only [replaceGo, if_pos hp, List.length_append, List.length_cons]
        omega
      · have h1 := ih cs
        simp only [replaceGo, if_neg hp, List.length_cons]
        omega

/-- Folding non-shrinking replacements never shrinks the string. -/
theorem foldl_replace_length :
    ∀ prs : List (Str × Str), (∀ pr ∈ prs, pr.1.length ≤ pr.2.length) →
      ∀ s : Str,
        s.length ≤ (prs.foldl (fun n pr => replaceAll n pr.1 pr.2) s).length := by
  intro prs
  induction prs with
  | nil => intro _ s; simp
  | cons p t ih =>
    intro hall s
    have h1 : s.length ≤ (replaceAll s p.1 p.2).length :=
      replaceGo_length_le p.1 p.2 (hall p (List.mem_cons_self _ _)) s.length s
    exact le_trans h1
      (ih (fun pr hpr => hall pr (List.mem_cons_of_mem _ hpr)) _)

/-- Away from the bare-head boundary, one head-spacing step succeeds and
never shrinks the name. -/
theorem pfx_step_length (p name : Str) (hlt : p.length < name.length) :
    ∃ out, pfx_step p name = some out ∧ name.length ≤ out.length := by
  by_cases hpre : p.isPrefixOf name
  · cases hc : name.get? p.length with
    | none => exact absurd (List.get?_eq_none.mp hc) (not_le.mpr hlt)
    | some c =>
      by_cases ha : c.isAlpha
      · refine ⟨name, ?_, le_refl _⟩
        unfold pfx_step
        rw [if_pos hpre, hc]
        simp [ha]
      · have hn1 : (replaceAll name (p ++ ['-']) (p ++ [' '])).length =
            name.length :=
          replaceGo_length_eq (p ++ ['-']) (p ++ [' ']) (by simp) name.length
            name
        cases hc1 : (replaceAll name (p ++ ['-']) (p ++ [' '])).get? p.length
          with
        | none =>
          refine absurd (List.get?_eq_none.mp hc1) (not_le.mpr ?_)
          rw [hn1]
          exact hlt
        | some c1 =>
          by_cases hsp : c1 = ' '
          · refine ⟨replaceAll name (p ++ ['-']) (p ++ [' ']), ?_, hn1.ge⟩
            unfold pfx_step
            rw [if_pos hpre, hc]
            simp only [ha, Bool.false_eq_true, not_false_eq_true, if_pos]
            rw [hc1]
            simp [hsp]
          · refine ⟨p ++ [' '] ++
              (replaceAll name (p ++ ['-']) (p ++ [' '])).drop p.length,
              ?_, ?_⟩
            · unfold pfx_step
              rw [if_pos hpre, hc]
              simp only [ha, Bool.false_eq_true, not_false_eq_true, if_pos]
              rw [hc1]
              simp [hsp]
            · simp only [List.length_append, List.length_drop, hn1,
                List.length_cons, List.length_nil]
              omega
  · exact ⟨name, by simp [pfx_step, hpre], le_refl _⟩

/-- The head-spacing loop succeeds on every name longer than all listed
heads, and never shrinks it. -/
theorem pfx_fold_length :
    ∀ ps : List Str, (∀ p ∈ ps, p.length ≤ 5) →
      ∀ name : Str, 6 ≤ name.length →
        ∃ out, ps.foldlM (fun n p => pfx_step p n) name = some out ∧
          6 ≤ out.length := by
  intro ps
  induction ps with
  | nil => intro _ name h; exact ⟨name, rfl, h⟩
  | cons p t ih =>
    intro hall name h
    obtain ⟨o1, ho1, hl1⟩ := pfx_step_length p name
      (lt_of_le_of_lt (hall p (List.mem_cons_self _ _))
        (lt_of_lt_of_le (by norm_num) h))
    obtain ⟨out, hout, hlout⟩ :=
      ih (fun q hq => hall q (List.mem_cons_of_mem _ hq)) o1 (le_trans h hl1)
    refine ⟨out, ?_, hlout⟩
    rw [List.foldlM_cons, ho1]
    simpa using hout

theorem findFromGo_bound (c : Char) :
    ∀ (xs : Str) (i k : Nat), findFromGo c i xs = some k →
      i ≤ k ∧ k < i + xs.length := by
  intro xs
  induction xs with
  | nil => intro i k h; cases h
  | cons x t ih =>
    intro i k h
    by_cases hx : x = c
    · simp only [findFromGo, if_pos hx, Option.some.injEq] at h
      subst h
      simp [Nat.lt_add_of_pos_right]
    · simp only [findFromGo, if_neg hx] at h
      obtain ⟨h1, h2⟩ := ih (i + 1) k h
      simp only [List.length_cons]
      omega

theorem findFrom_lt (s : Str) (c : Char) (start k : Nat)
    (h : findFrom s c start = some k) : k < s.length := by
  unfold findFrom at h
  cases hg : findFromGo c 0 (s.drop start) with
  | none => rw [hg] at h; cases h
  | some j =>
    rw [hg] at h
    obtain ⟨-, h2⟩ := findFromGo_bound c _ 0 j hg
    simp only [Option.some.injEq] at h
    subst h
    rw [List.length_drop] at h2
    omega

/-- The signed-declination step is a pure in-place substitution: it keeps
the length. -/
theorem dash_step_length (p name : Str) :
    (dash_step p name).length = name.length := by
  cases hf : findFrom name '-' p.length with
  | none => simp [dash_step, hf]
  | some d =>
    have hd := findFrom_lt name '-' p.length d hf
    by_cases hc : p.isPrefixOf name ∧ 0 < d
    · simp only [dash_step, hf]
      rw [if_pos hc]
      simp only [List.length_append, List.length_take, List.length_drop,
        List.length_cons, List.length_nil]
      rw [min_eq_left hd.le]
      omega
    · simp only [dash_step, hf]
      rw [if_neg hc]

theorem dash_fold_length (ps : List Str) (name : Str) :
    (ps.foldl (fun n p => dash_step p n) name).length = name.length := by
  induction ps generalizing name with
  | nil => rfl
  | cons p t ih => rw [List.foldl_cons, ih, dash_step_length]

/-- The star-A step cannot raise on names of length at least two. -/
theorem starA_step_isSome (name : Str) (h : 2 ≤ name.length) :
    (starA_step name).isSome = true := by
  unfold starA_step
  by_cases hlast : name.getLast? = some 'A'
  · rw [if_pos hlast]
    have hj : pyGet name (-2) = name.get? (name.length - 2) := by
      unfold pyGet
      rw [if_neg (by norm_num)]
      simp only
      rw [if_pos (by omega)]
      congr 1
      omega
    cases hg : name.get? (name.length - 2) with
    | none =>
      have := List.get?_eq_none.mp hg
      omega
    | some c =>
      rw [hj, hg]
      by_cases hw : c.isWhitespace <;> simp [hw]
  · rw [if_neg hlast]
    rfl

/-! ## Claim C2: totality of `normalize_name` -/

/-- Claim C2 counterexample: `normalize_name` is not total — on the bare
catalog-head names `'HD'` and `'L'` the check `name[prefix_len]` raises
an `IndexError`, and on `'A'` the check `name[-2]` does; all three inputs
are named by the claim as ones it must survive. -/
theorem C2_counterexample :
    normalize_name "HD".toList = none ∧
    normalize_name "L".toList = none ∧
    normalize_name "A".toList = none := ⟨rfl, rfl, rfl⟩

/-- Claim C2 (corrected): `normalize_name` returns a string on every
input whose whitespace-collapsed form has at least six characters (all
rewrite stages preserve that bound and every indexing guard is then
satisfied, the listed catalog heads having at most five characters); it
raises `IndexError` on degenerate short inputs such as a bare catalog
head or a bare `'A'`. -/
theorem C2_theorem (s : Str) (h : 6 ≤ (collapseWs s).length) :
    (normalize_name s).isSome = true := by
  have h1 : 6 ≤ ((casefixes.foldl (fun n pr => replaceAll n pr.1 pr.2)
      (collapseWs s))).length :=
    le_trans h (foldl_replace_length casefixes (by decide) _)
  obtain ⟨n2, h2, hl2⟩ := pfx_fold_length spacedPfxs (by decide) _ h1
  have h4 := starA_step_isSome (dash_pfxs.foldl (fun n p => dash_step p n) n2)
    (by rw [dash_fold_length]; omega)
  obtain ⟨n4, hn4⟩ := Option.isSome_iff_exists.mp h4
  simp [normalize_name, h2, hn4, bind, Option.bind]

/-- Witness for C2 at a typical planet name. -/
theorem C2_witness : (normalize_name "WASP-69 b".toList).isSome = true :=
  C2_theorem "WASP-69 b".toList (by decide)
